import Mathlib

/-!
Verification of the numerical-quadrature core of `comp_math/lab4/main.cpp`.

The C++ code computes a definite integral of the fixed integrand
`f(x) = (x + 3) / (x * x + 4)` with three fixed-formula integrators
(central rectangles, trapezoid, Simpson), an adaptive step-doubling driver
based on Runge error estimation and Richardson extrapolation, and a
closed-form error-bound planner for the subdivision count.

The shallow embedding below translates the C++ `double` arithmetic into
exact rational arithmetic (`ℚ`) and the C++ `int` into `ℤ`; loops become
structural recursions that mirror the source loops statement by statement.
-/

/-- Integrand `func` from `main.cpp` line 21: `(x + 3.0) / (x * x + 4.0)`. -/
def func (x : ℚ) : ℚ := (x + 3) / (x * x + 4)

/-- Embedding of the C++ accumulation loop `sum = init; for (i = 0; i < n; ++i) sum += g(i);`.
`forSum init g n` is the value of `sum` after the loop. -/
def forSum (init : ℚ) (g : ℕ → ℚ) : ℕ → ℚ
  | 0 => init
  | k + 1 => forSum init g k + g k

/-- Central-rectangles rule, `main.cpp` lines 70–79.  The C++ loop runs
`i = 0 .. n-1` adding `func(a + (i + 0.5) * h)`. -/
def central_rectangles (a b : ℚ) (n : ℤ) : ℚ :=
  if n ≤ 0 then 0
  else
    let h := (b - a) / (n : ℚ)
    h * forSum 0 (fun i => func (a + ((i : ℚ) + 1/2) * h)) n.toNat

/-- Trapezoidal rule, `main.cpp` lines 112–123.  The C++ loop runs
`i = 1 .. n-1` adding `func(a + i * h)` on top of `(func a + func b) / 2`;
here the loop index is shifted so that `i` ranges over `0 .. n-2`. -/
def trapezoidal_rule (a b : ℚ) (n : ℤ) : ℚ :=
  if n ≤ 0 then 0
  else
    let h := (b - a) / (n : ℚ)
    h * forSum ((func a + func b) / 2) (fun i => func (a + ((i : ℚ) + 1) * h)) (n.toNat - 1)

/-- Simpson's rule, `main.cpp` lines 158–180.  An odd `n` is first bumped to
`n + 1`; the loop runs `i = 1 .. n-1` with coefficient `4` for odd `i` and
`2` for even `i`; here the loop index is shifted so that `i` ranges over
`0 .. n-2` and the C++ index is `i + 1`. -/
def simpsons_rule (a b : ℚ) (n : ℤ) : ℚ :=
  if n ≤ 0 then 0
  else
    let m := if n % 2 ≠ 0 then n + 1 else n
    let h := (b - a) / (m : ℚ)
    (h / 3) * forSum (func a + func b)
      (fun i => (if (i + 1) % 2 = 1 then (4 : ℚ) else 2) * func (a + ((i : ℚ) + 1) * h))
      (m.toNat - 1)

lemma forSum_eq_sum (init : ℚ) (g : ℕ → ℚ) (n : ℕ) :
    forSum init g n = init + ∑ i ∈ Finset.range n, g i := by
  induction n with
  | zero => simp [forSum]
  | succ k ih => rw [forSum, ih, Finset.sum_range_succ]; ring

/-- C5: each of the three fixed formulas returns exactly `0` for a
subdivision count `n ≤ 0`, and (being a total function) signals no failure. -/
theorem integrators_degenerate_zero (a b : ℚ) (n : ℤ) (hn : n ≤ 0) :
    central_rectangles a b n = 0 ∧ trapezoidal_rule a b n = 0 ∧ simpsons_rule a b n = 0 := by
  refine ⟨?_, ?_, ?_⟩ <;>
    simp [central_rectangles, trapezoidal_rule, simpsons_rule, if_pos hn]

/-- Witness for C5 at the concrete input `a = 0`, `b = 1`, `n = -1`. -/
theorem integrators_degenerate_zero_witness :
    central_rectangles 0 1 (-1) = 0 ∧ trapezoidal_rule 0 1 (-1) = 0 ∧
      simpsons_rule 0 1 (-1) = 0 :=
  integrators_degenerate_zero 0 1 (-1) (by decide)

/-- C6: for an odd subdivision count `n > 0`, Simpson's rule rounds `n` up to
the next even value before use, so the result at `n` equals the result at `n + 1`. -/
theorem simpsons_odd_roundup (a b : ℚ) (n : ℤ) (h1 : 0 < n) (h2 : n % 2 = 1) :
    simpsons_rule a b n = simpsons_rule a b (n + 1) := by
  have h0 : ¬ n ≤ 0 := by omega
  have h0' : ¬ n + 1 ≤ 0 := by omega
  have h3 : (n + 1) % 2 = 0 := by omega
  simp [simpsons_rule, h0, h0', h2, h3]

/-- Witness for C6 at the concrete input `a = 0`, `b = 1`, `n = 3`. -/
theorem simpsons_odd_roundup_witness :
    simpsons_rule 0 1 3 = simpsons_rule 0 1 (3 + 1) :=
  simpsons_odd_roundup 0 1 3 (by decide) (by decide)

/-- C7: for `n > 0` the trapezoidal rule computes
`h * ((f a + f b) / 2 + ∑_{i=1}^{n-1} f (a + i * h))` with `h = (b - a) / n`,
where `f x = (x + 3) / (x ^ 2 + 4)` is the fixed integrand. -/
theorem trapezoidal_matches_formula (a b : ℚ) (n : ℤ) (hn : 0 < n) :
    trapezoidal_rule a b n =
      ((b - a) / (n : ℚ)) *
        (((a + 3) / (a ^ 2 + 4) + (b + 3) / (b ^ 2 + 4)) / 2 +
          ∑ i ∈ Finset.Ico 1 n.toNat,
            ((a + (i : ℚ) * ((b - a) / (n : ℚ))) + 3) /
              ((a + (i : ℚ) * ((b - a) / (n : ℚ))) ^ 2 + 4)) := by
  have h0 : ¬ n ≤ 0 := by omega
  rw [Finset.sum_Ico_eq_sum_range]
  simp only [trapezoidal_rule, h0, if_false, forSum_eq_sum, func]
  have ha : a * a = a ^ 2 := by ring
  have hb : b * b = b ^ 2 := by ring
  rw [ha, hb]
  congr 2
  apply Finset.sum_congr rfl
  intro i _
  have hc : ((1 + i : ℕ) : ℚ) = (i : ℚ) + 1 := by push_cast; ring
  rw [hc]
  ring_nf

/-- Witness for C7 at the concrete input `a = 0`, `b = 2`, `n = 2`. -/
theorem trapezoidal_matches_formula_witness :
    trapezoidal_rule 0 2 2 =
      ((2 - 0) / ((2 : ℤ) : ℚ)) *
        (((0 + 3) / ((0 : ℚ) ^ 2 + 4) + (2 + 3) / ((2 : ℚ) ^ 2 + 4)) / 2 +
          ∑ i ∈ Finset.Ico 1 (2 : ℤ).toNat,
            ((0 + (i : ℚ) * ((2 - 0) / ((2 : ℤ) : ℚ))) + 3) /
              ((0 + (i : ℚ) * ((2 - 0) / ((2 : ℤ) : ℚ))) ^ 2 + 4)) :=
  trapezoidal_matches_formula 0 2 2 (by decide)

/-- Outcome of one execution of the do-while body of `integrate_with_runge`
(`main.cpp` lines 261–298): either the function returns from inside the loop
(`done value n_final`), or the loop continues with the updated state
(`again I_h I_2h n iter`). -/
inductive RungeOut where
  | done : ℚ → ℤ → RungeOut
  | again : ℚ → ℚ → ℤ → ℕ → RungeOut

/-- One execution of the do-while body, `main.cpp` lines 262–290:
save `I_2h ← I_h`, double `n`, recompute `I_h`, form the Runge estimate
`|I_h − I_2h| / (2^p − 1)`, and apply the stopping rule.  The reliability
override (line 278) cancels the stop when `p ≥ 4`, `n < minN` and
`current_iteration < max_iterations - 1 = 1999`. -/
def rungeStep (integ : ℚ → ℚ → ℤ → ℚ) (a b eps : ℚ) (p : ℕ) (minN : ℤ)
    (I_h : ℚ) (n : ℤ) (iter : ℕ) : RungeOut :=
  if |integ a b (2 * n) - I_h| / (2 ^ p - 1) < eps ∧
      ¬(4 ≤ p ∧ 2 * n < minN ∧ iter < 1999) then
    RungeOut.done (integ a b (2 * n) + (integ a b (2 * n) - I_h) / (2 ^ p - 1)) (2 * n)
  else
    RungeOut.again (integ a b (2 * n)) I_h (2 * n) (iter + 1)

/-- Richardson-extrapolated value `I_h + (I_h - I_2h) / (2^p - 1)` used at both
return sites of `integrate_with_runge` (`main.cpp` lines 287 and 309). -/
def richardson (I_h I_2h : ℚ) (p : ℕ) : ℚ := I_h + (I_h - I_2h) / (2 ^ p - 1)

/-- The do-while loop of `integrate_with_runge`, `main.cpp` lines 261–309,
as a fueled recursion.  After the body (`rungeStep`), the code checks the
subdivision ceiling `n > 4000000` (break) and the while-condition
`current_iteration < 2000`; on any exit without an in-loop return it falls
back to the Richardson value of the last two iterates (line 309).  The fuel
only bounds the recursion depth; with `fuel = 2000` and `iter = 0` the
fuel-exhaustion branch is unreachable (see `runge_iteration_budget`). -/
def rungeLoop (integ : ℚ → ℚ → ℤ → ℚ) (a b eps : ℚ) (p : ℕ) (minN : ℤ) :
    ℕ → ℚ → ℤ → ℕ → ℚ × ℤ
  | 0, I_h, n, iter =>
      match rungeStep integ a b eps p minN I_h n iter with
      | RungeOut.done v nf => (v, nf)
      | RungeOut.again Ih2 I2h2 n2 _ => (richardson Ih2 I2h2 p, n2)
  | fuel + 1, I_h, n, iter =>
      match rungeStep integ a b eps p minN I_h n iter with
      | RungeOut.done v nf => (v, nf)
      | RungeOut.again Ih2 I2h2 n2 iter2 =>
          if 4000000 < n2 then (richardson Ih2 I2h2 p, n2)
          else if iter2 < 2000 then rungeLoop integ a b eps p minN fuel Ih2 n2 iter2
          else (richardson Ih2 I2h2 p, n2)

/-- Initial subdivision count of `integrate_with_runge`, `main.cpp`
lines 231–238: `n = 2`, and for `p = 4` bump odd `n` and replace `n = 0` by `2`. -/
def initN (p : ℕ) : ℤ :=
  if p = 4 then
    (if (if (2 : ℤ) % 2 = 0 then (2 : ℤ) else 2 + 1) = 0 then 2
     else (if (2 : ℤ) % 2 = 0 then (2 : ℤ) else 2 + 1))
  else 2

/-- Reliability floor `min_n_for_reliable_runge`, `main.cpp` lines 252–258:
`8` for `p = 4`, otherwise the default `1`. -/
def minReliableN (p : ℕ) : ℤ := if p = 4 then 8 else 1

/-- The adaptive driver with an explicit fuel bound on the loop recursion. -/
def rungeRun (fuel : ℕ) (integ : ℚ → ℚ → ℤ → ℚ) (a b eps : ℚ) (p : ℕ) : ℚ × ℤ :=
  rungeLoop integ a b eps p (minReliableN p) fuel (integ a b (initN p)) (initN p) 0

/-- Adaptive Runge/Richardson driver `integrate_with_runge`, `main.cpp`
lines 227–310, returning the refined integral value and the final
subdivision count `n_final`. -/
def integrate_with_runge (integ : ℚ → ℚ → ℤ → ℚ) (a b eps : ℚ) (p : ℕ) : ℚ × ℤ :=
  rungeRun 2000 integ a b eps p

lemma initN_eq (p : ℕ) : initN p = 2 := by
  unfold initN
  split <;> norm_num

lemma rungeStep_done (integ : ℚ → ℚ → ℤ → ℚ) (a b eps : ℚ) (p : ℕ) (minN : ℤ)
    (I_h : ℚ) (n : ℤ) (iter : ℕ)
    (hcond : |integ a b (2 * n) - I_h| / (2 ^ p - 1) < eps ∧
      ¬(4 ≤ p ∧ 2 * n < minN ∧ iter < 1999)) :
    rungeStep integ a b eps p minN I_h n iter
      = RungeOut.done (integ a b (2 * n) + (integ a b (2 * n) - I_h) / (2 ^ p - 1))
          (2 * n) := by
  unfold rungeStep
  rw [if_pos hcond]

lemma rungeStep_again (integ : ℚ → ℚ → ℤ → ℚ) (a b eps : ℚ) (p : ℕ) (minN : ℤ)
    (I_h : ℚ) (n : ℤ) (iter : ℕ)
    (hcond : ¬(|integ a b (2 * n) - I_h| / (2 ^ p - 1) < eps ∧
      ¬(4 ≤ p ∧ 2 * n < minN ∧ iter < 1999))) :
    rungeStep integ a b eps p minN I_h n iter
      = RungeOut.again (integ a b (2 * n)) I_h (2 * n) (iter + 1) := by
  unfold rungeStep
  rw [if_neg hcond]

lemma rungeStep_spec (integ : ℚ → ℚ → ℤ → ℚ) (a b eps : ℚ) (p : ℕ) (minN : ℤ)
    (I_h : ℚ) (n : ℤ) (iter : ℕ) :
    rungeStep integ a b eps p minN I_h n iter
        = RungeOut.done (integ a b (2 * n) + (integ a b (2 * n) - I_h) / (2 ^ p - 1))
            (2 * n)
      ∨ rungeStep integ a b eps p minN I_h n iter
          = RungeOut.again (integ a b (2 * n)) I_h (2 * n) (iter + 1) := by
  unfold rungeStep
  split
  · exact Or.inl rfl
  · exact Or.inr rfl

lemma rungeLoop_of_done (integ : ℚ → ℚ → ℤ → ℚ) (a b eps : ℚ) (p : ℕ) (minN : ℤ)
    (fuel : ℕ) (I_h : ℚ) (n : ℤ) (iter : ℕ) (v : ℚ) (nf : ℤ)
    (h : rungeStep integ a b eps p minN I_h n iter = RungeOut.done v nf) :
    rungeLoop integ a b eps p minN fuel I_h n iter = (v, nf) := by
  cases fuel <;>
    · unfold rungeLoop
      rw [h]

lemma rungeLoop_zero_of_again (integ : ℚ → ℚ → ℤ → ℚ) (a b eps : ℚ) (p : ℕ) (minN : ℤ)
    (I_h : ℚ) (n : ℤ) (iter : ℕ) (Ih2 I2h2 : ℚ) (n2 : ℤ) (iter2 : ℕ)
    (h : rungeStep integ a b eps p minN I_h n iter = RungeOut.again Ih2 I2h2 n2 iter2) :
    rungeLoop integ a b eps p minN 0 I_h n iter = (richardson Ih2 I2h2 p, n2) := by
  unfold rungeLoop
  rw [h]

lemma rungeLoop_succ_of_again (integ : ℚ → ℚ → ℤ → ℚ) (a b eps : ℚ) (p : ℕ) (minN : ℤ)
    (fuel : ℕ) (I_h : ℚ) (n : ℤ) (iter : ℕ) (Ih2 I2h2 : ℚ) (n2 : ℤ) (iter2 : ℕ)
    (h : rungeStep integ a b eps p minN I_h n iter = RungeOut.again Ih2 I2h2 n2 iter2) :
    rungeLoop integ a b eps p minN (fuel + 1) I_h n iter
      = if 4000000 < n2 then (richardson Ih2 I2h2 p, n2)
        else if iter2 < 2000 then rungeLoop integ a b eps p minN fuel Ih2 n2 iter2
        else (richardson Ih2 I2h2 p, n2) := by
  conv_lhs => rw [rungeLoop]
  rw [h]

/-- C1: whenever the loop body finds a Runge estimate
`e = |I_h − I_2h| / (2^p − 1) < eps` and either `p < 4` or the doubled
subdivision count `2 * n` has reached the reliability floor `8`, the driver
stops and returns exactly the Richardson-extrapolated value together with
that doubled count as `n_final`.  `minN` is the floor the driver installs
for order `p` (`minReliableN`), and `p ≥ 1` keeps the embedded real
arithmetic faithful to the C++ `pow(2, p) - 1` denominator. -/
theorem runge_stopping_rule (integ : ℚ → ℚ → ℤ → ℚ) (a b eps : ℚ) (p : ℕ) (minN : ℤ)
    (fuel : ℕ) (I_h : ℚ) (n : ℤ) (iter : ℕ)
    (_hp1 : 1 ≤ p)
    (hminN : minN = minReliableN p)
    (hest : |integ a b (2 * n) - I_h| / (2 ^ p - 1) < eps)
    (hrel : p < 4 ∨ 8 ≤ 2 * n) :
    rungeLoop integ a b eps p minN fuel I_h n iter
      = (integ a b (2 * n) + (integ a b (2 * n) - I_h) / (2 ^ p - 1), 2 * n) := by
  have hcond : |integ a b (2 * n) - I_h| / (2 ^ p - 1) < eps ∧
      ¬(4 ≤ p ∧ 2 * n < minN ∧ iter < 1999) := by
    refine ⟨hest, ?_⟩
    rintro ⟨h4, hlt, -⟩
    rcases hrel with hlt4 | h8
    · omega
    · have : minN ≤ 8 := by
        rw [hminN]
        unfold minReliableN
        split <;> omega
      omega
  exact rungeLoop_of_done integ a b eps p minN fuel I_h n iter _ _
    (rungeStep_done integ a b eps p minN I_h n iter hcond)

/-- Witness for C1: constant-zero integrator, `a = 0`, `b = 1`, `eps = 1`,
`p = 2`, `minN = minReliableN 2 = 1`, state `I_h = 0`, `n = 2`, `iter = 0`,
`fuel = 2000`; the estimate is `0 < 1` and `p < 4`, so the loop returns the
Richardson value with `n_final = 2 * 2`. -/
theorem runge_stopping_rule_witness :
    rungeLoop (fun _ _ _ => (0 : ℚ)) 0 1 1 2 1 2000 0 2 0
      = ((0 : ℚ) + ((0 : ℚ) - 0) / (2 ^ 2 - 1), 2 * 2) :=
  runge_stopping_rule (fun _ _ _ => (0 : ℚ)) 0 1 1 2 1 2000 0 2 0
    (by decide) (by decide) (by simp) (Or.inl (by decide))

/-- C4: when the Runge estimate does not meet the tolerance and either the
subdivision ceiling is crossed (`4000000 < 2 * n`) or the iteration budget is
exhausted (`1999 ≤ iter`), the driver does not abort: it returns the
Richardson-extrapolated value of its last two iterates together with the
last subdivision count `2 * n`. -/
theorem runge_budget_fallback (integ : ℚ → ℚ → ℤ → ℚ) (a b eps : ℚ) (p : ℕ) (minN : ℤ)
    (fuel : ℕ) (I_h : ℚ) (n : ℤ) (iter : ℕ)
    (_hp1 : 1 ≤ p)
    (hest : ¬ |integ a b (2 * n) - I_h| / (2 ^ p - 1) < eps)
    (hexh : 4000000 < 2 * n ∨ 1999 ≤ iter) :
    rungeLoop integ a b eps p minN fuel I_h n iter
      = (richardson (integ a b (2 * n)) I_h p, 2 * n) := by
  have hcond : ¬(|integ a b (2 * n) - I_h| / (2 ^ p - 1) < eps ∧
      ¬(4 ≤ p ∧ 2 * n < minN ∧ iter < 1999)) := by
    rintro ⟨h, -⟩
    exact hest h
  have hstep := rungeStep_again integ a b eps p minN I_h n iter hcond
  cases fuel with
  | zero =>
      exact rungeLoop_zero_of_again integ a b eps p minN I_h n iter _ _ _ _ hstep
  | succ fuel =>
      rw [rungeLoop_succ_of_again integ a b eps p minN fuel I_h n iter _ _ _ _ hstep]
      rcases lt_or_le 4000000 (2 * n) with hbig | hle
      · rw [if_pos hbig]
      · have h2 : ¬ (4000000 < 2 * n) := not_lt.2 hle
        have h3 : ¬ (iter + 1 < 2000) := by
          rcases hexh with hbig | hiter
          · omega
          · omega
        rw [if_neg h2, if_neg h3]

/-- Witness for C4: constant-zero integrator, `eps = 0` (the estimate `0` is
not below it), state `I_h = 0`, `n = 2`, `iter = 1999` (budget exhausted),
`p = 2`, `minN = 1`, `fuel = 5`. -/
theorem runge_budget_fallback_witness :
    rungeLoop (fun _ _ _ => (0 : ℚ)) 0 1 0 2 1 5 0 2 1999
      = (richardson ((fun _ _ _ => (0 : ℚ)) 0 1 (2 * 2)) 0 2, 2 * 2) :=
  runge_budget_fallback (fun _ _ _ => (0 : ℚ)) 0 1 0 2 1 5 0 2 1999
    (by decide) (by simp) (Or.inr (by decide))

/-- Trace of the subdivision counts with which the do-while loop of
`integrate_with_runge` invokes the integrator (`main.cpp` line 264), in
order.  Each body execution first doubles `n` and then calls
`integrator(a, b, n)`, so each body execution contributes `2 * n`;
the list mirrors the control flow of `rungeLoop` exactly. -/
def rungeLoopNs (integ : ℚ → ℚ → ℤ → ℚ) (a b eps : ℚ) (p : ℕ) (minN : ℤ) :
    ℕ → ℚ → ℤ → ℕ → List ℤ
  | 0, _, n, _ => [2 * n]
  | fuel + 1, I_h, n, iter =>
      match rungeStep integ a b eps p minN I_h n iter with
      | RungeOut.done _ _ => [2 * n]
      | RungeOut.again Ih2 _ n2 iter2 =>
          if 4000000 < n2 then [n2]
          else if iter2 < 2000 then n2 :: rungeLoopNs integ a b eps p minN fuel Ih2 n2 iter2
          else [n2]

/-- All subdivision counts with which `integrate_with_runge` invokes the
integrator: the initial call at `initN p` (`main.cpp` line 241) followed by
the loop trace. -/
def rungeNs (integ : ℚ → ℚ → ℤ → ℚ) (a b eps : ℚ) (p : ℕ) : List ℤ :=
  initN p :: rungeLoopNs integ a b eps p (minReliableN p) 2000 (integ a b (initN p)) (initN p) 0

lemma rungeLoopNs_zero {integ : ℚ → ℚ → ℤ → ℚ} {a b eps : ℚ} {p : ℕ} {minN : ℤ}
    {I_h : ℚ} {n : ℤ} {iter : ℕ} :
    rungeLoopNs integ a b eps p minN 0 I_h n iter = [2 * n] := rfl

lemma rungeLoopNs_succ_of_done {integ : ℚ → ℚ → ℤ → ℚ} {a b eps : ℚ} {p : ℕ} {minN : ℤ}
    {fuel : ℕ} {I_h : ℚ} {n : ℤ} {iter : ℕ} {v : ℚ} {nf : ℤ}
    (h : rungeStep integ a b eps p minN I_h n iter = RungeOut.done v nf) :
    rungeLoopNs integ a b eps p minN (fuel + 1) I_h n iter = [2 * n] := by
  conv_lhs => rw [rungeLoopNs]
  rw [h]

lemma rungeLoopNs_succ_of_again {integ : ℚ → ℚ → ℤ → ℚ} {a b eps : ℚ} {p : ℕ} {minN : ℤ}
    {fuel : ℕ} {I_h : ℚ} {n : ℤ} {iter : ℕ} {Ih2 I2h2 : ℚ} {n2 : ℤ} {iter2 : ℕ}
    (h : rungeStep integ a b eps p minN I_h n iter = RungeOut.again Ih2 I2h2 n2 iter2) :
    rungeLoopNs integ a b eps p minN (fuel + 1) I_h n iter
      = if 4000000 < n2 then [n2]
        else if iter2 < 2000 then n2 :: rungeLoopNs integ a b eps p minN fuel Ih2 n2 iter2
        else [n2] := by
  conv_lhs => rw [rungeLoopNs]
  rw [h]

lemma two_mul_pow_le (j : ℕ) (hj : (2 : ℤ) ^ j ≤ 4000000) : 2 * (2 : ℤ) ^ j ≤ 4194304 := by
  have hj21 : j ≤ 21 := by
    by_contra hc
    push_neg at hc
    have h1 : (2 : ℤ) ^ 22 ≤ 2 ^ j := pow_le_pow_right₀ (by norm_num) (by omega)
    have h2 : (4194304 : ℤ) ≤ 4000000 := by
      calc (4194304 : ℤ) = 2 ^ 22 := by norm_num
        _ ≤ 2 ^ j := h1
        _ ≤ 4000000 := hj
    norm_num at h2
  have h3 : (2 : ℤ) ^ (j + 1) ≤ 2 ^ 22 := pow_le_pow_right₀ (by norm_num) (by omega)
  calc 2 * (2 : ℤ) ^ j = 2 ^ (j + 1) := by ring
    _ ≤ 2 ^ 22 := h3
    _ = 4194304 := by norm_num

lemma rungeLoopNs_bound (integ : ℚ → ℚ → ℤ → ℚ) (a b eps : ℚ) (p : ℕ) (minN : ℤ) :
    ∀ (fuel : ℕ) (I_h : ℚ) (n : ℤ) (iter : ℕ) (j : ℕ), n = 2 ^ j → (2 : ℤ) ^ j ≤ 4000000 →
      ∀ m ∈ rungeLoopNs integ a b eps p minN fuel I_h n iter, m ≤ 4194304 := by
  intro fuel
  induction fuel with
  | zero =>
      intro I_h n iter j hn hj m hm
      rw [rungeLoopNs_zero, List.mem_singleton] at hm
      subst hm
      rw [hn]
      exact two_mul_pow_le j hj
  | succ fuel ih =>
      intro I_h n iter j hn hj m hm
      rcases rungeStep_spec integ a b eps p minN I_h n iter with hs | hs
      · rw [rungeLoopNs_succ_of_done hs, List.mem_singleton] at hm
        subst hm
        rw [hn]
        exact two_mul_pow_le j hj
      · rw [rungeLoopNs_succ_of_again hs] at hm
        by_cases hbig : 4000000 < 2 * n
        · rw [if_pos hbig, List.mem_singleton] at hm
          subst hm
          rw [hn]
          exact two_mul_pow_le j hj
        · rw [if_neg hbig] at hm
          have hj2 : (2 : ℤ) ^ (j + 1) ≤ 4000000 := by
            have : 2 * n ≤ 4000000 := by omega
            calc (2 : ℤ) ^ (j + 1) = 2 * 2 ^ j := by ring
              _ = 2 * n := by rw [hn]
              _ ≤ 4000000 := this
          by_cases hw : iter + 1 < 2000
          · rw [if_pos hw, List.mem_cons] at hm
            rcases hm with rfl | hm2
            · rw [hn]
              exact two_mul_pow_le j hj
            · exact ih (integ a b (2 * n)) (2 * n) (iter + 1) (j + 1)
                (by rw [hn]; ring) hj2 m hm2
          · rw [if_neg hw, List.mem_singleton] at hm
            subst hm
            rw [hn]
            exact two_mul_pow_le j hj

/-- Amended C3: every invocation of the integrator made by the adaptive
driver uses a subdivision count of at most `4194304 = 2^22`.  The original
ceiling `4000000` is checked only after the integrator has already been
invoked with the doubled count, so one invocation may exceed it (see
`runge_subdivision_ceiling_cex`), but never by more than one doubling. -/
theorem runge_invoked_le (integ : ℚ → ℚ → ℤ → ℚ) (a b eps : ℚ) (p : ℕ) :
    ∀ m ∈ rungeNs integ a b eps p, m ≤ 4194304 := by
  intro m hm
  unfold rungeNs at hm
  rcases List.mem_cons.mp hm with rfl | hm2
  · rw [initN_eq]
    norm_num
  · refine rungeLoopNs_bound integ a b eps p (minReliableN p) 2000
      (integ a b (initN p)) (initN p) 0 1 ?_ ?_ m hm2
    · rw [initN_eq]
      norm_num
    · norm_num

/-- Witness for the amended C3: the initial invocation of a concrete run
(constant-zero integrator, `a = 0`, `b = 1`, `eps = 1`, `p = 2`) uses
`n = 2`, which is within the `4194304` bound. -/
theorem runge_invoked_le_witness :
    (2 : ℤ) ∈ rungeNs (fun _ _ _ => (0 : ℚ)) 0 1 1 2 ∧ (2 : ℤ) ≤ 4194304 := by
  have hmem : (2 : ℤ) ∈ rungeNs (fun _ _ _ => (0 : ℚ)) 0 1 1 2 := by
    unfold rungeNs
    rw [initN_eq]
    exact List.mem_cons_self 2 _
  exact ⟨hmem, runge_invoked_le (fun _ _ _ => (0 : ℚ)) 0 1 1 2 2 hmem⟩

lemma czero_step (p : ℕ) (minN : ℤ) (n : ℤ) (iter : ℕ) :
    rungeStep (fun _ _ _ => (0 : ℚ)) 0 1 0 p minN 0 n iter
      = RungeOut.again 0 0 (2 * n) (iter + 1) :=
  rungeStep_again (fun _ _ _ => (0 : ℚ)) 0 1 0 p minN 0 n iter
    (by rintro ⟨h, -⟩; simp at h)

lemma czero_ns_mem (p : ℕ) (minN : ℤ) :
    ∀ (fuel : ℕ) (n : ℤ) (iter j : ℕ), n = 2 ^ j → 1 ≤ j → j ≤ 21 →
      iter + (22 - j) ≤ 2000 → 22 - j ≤ fuel →
      (4194304 : ℤ) ∈ rungeLoopNs (fun _ _ _ => (0 : ℚ)) 0 1 0 p minN fuel 0 n iter := by
  intro fuel
  induction fuel with
  | zero =>
      intro n iter j _ _ h21 _ hfuel
      exfalso
      omega
  | succ fuel ih =>
      intro n iter j hn h1 h21 hiter _
      rw [rungeLoopNs_succ_of_again (czero_step p minN n iter)]
      by_cases hj : j = 21
      · subst hj
        have hbig : 4000000 < 2 * n := by
          rw [hn]
          norm_num
        rw [if_pos hbig, List.mem_singleton, hn]
        norm_num
      · have hsmall : ¬ 4000000 < 2 * n := by
          push_neg
          rw [hn]
          calc 2 * (2 : ℤ) ^ j = 2 ^ (j + 1) := by ring
            _ ≤ 2 ^ 21 := pow_le_pow_right₀ (by norm_num) (by omega)
            _ ≤ 4000000 := by norm_num
        rw [if_neg hsmall]
        have hw : iter + 1 < 2000 := by omega
        rw [if_pos hw]
        exact List.mem_cons_of_mem _
          (ih (2 * n) (iter + 1) (j + 1) (by rw [hn]; ring) (by omega) (by omega)
            (by omega) (by omega))

/-- Counterexample to C3 as stated: in the run of the adaptive driver with
the constant-zero integrator, `a = 0`, `b = 1`, `eps = 0`, `p = 2`, the
driver invokes the integrator with subdivision count `4194304 > 4000000`
(the ceiling is only checked after the invocation, `main.cpp` lines 264
and 292). -/
theorem runge_subdivision_ceiling_cex :
    (4194304 : ℤ) ∈ rungeNs (fun _ _ _ => (0 : ℚ)) 0 1 0 2
      ∧ ¬ ((4194304 : ℤ) ≤ 4000000) := by
  constructor
  · unfold rungeNs
    refine List.mem_cons_of_mem _ ?_
    rw [initN_eq]
    exact czero_ns_mem 2 (minReliableN 2) 2000 2 0 1 (by norm_num) (by omega) (by omega)
      (by omega) (by omega)
  · decide

lemma rungeLoop_snd_pow (integ : ℚ → ℚ → ℤ → ℚ) (a b eps : ℚ) (p : ℕ) (minN : ℤ) :
    ∀ (fuel : ℕ) (I_h : ℚ) (n : ℤ) (iter : ℕ),
      ∃ k : ℕ, 1 ≤ k ∧ (rungeLoop integ a b eps p minN fuel I_h n iter).2 = 2 ^ k * n := by
  intro fuel
  induction fuel with
  | zero =>
      intro I_h n iter
      rcases rungeStep_spec integ a b eps p minN I_h n iter with hs | hs
      · rw [rungeLoop_of_done integ a b eps p minN 0 I_h n iter _ _ hs]
        exact ⟨1, le_refl 1, by ring⟩
      · rw [rungeLoop_zero_of_again integ a b eps p minN I_h n iter _ _ _ _ hs]
        exact ⟨1, le_refl 1, by ring⟩
  | succ fuel ih =>
      intro I_h n iter
      rcases rungeStep_spec integ a b eps p minN I_h n iter with hs | hs
      · rw [rungeLoop_of_done integ a b eps p minN (fuel + 1) I_h n iter _ _ hs]
        exact ⟨1, le_refl 1, by ring⟩
      · rw [rungeLoop_succ_of_again integ a b eps p minN fuel I_h n iter _ _ _ _ hs]
        by_cases hbig : 4000000 < 2 * n
        · rw [if_pos hbig]
          exact ⟨1, le_refl 1, by ring⟩
        · rw [if_neg hbig]
          by_cases hw : iter + 1 < 2000
          · rw [if_pos hw]
            obtain ⟨k, hk1, hk⟩ := ih (integ a b (2 * n)) (2 * n) (iter + 1)
            exact ⟨k + 1, by omega, by rw [hk]; ring⟩
          · rw [if_neg hw]
            exact ⟨1, le_refl 1, by ring⟩

/-- C9: the final subdivision count returned by the adaptive driver is always
`2 ^ k * 2` for some natural `k`: a power of two times the initial `n = 2`. -/
theorem runge_final_n_power_of_two (integ : ℚ → ℚ → ℤ → ℚ) (a b eps : ℚ) (p : ℕ) :
    ∃ k : ℕ, (integrate_with_runge integ a b eps p).2 = 2 ^ k * 2 := by
  obtain ⟨k, -, hk⟩ := rungeLoop_snd_pow integ a b eps p (minReliableN p) 2000
    (integ a b (initN p)) (initN p) 0
  refine ⟨k, ?_⟩
  rw [integrate_with_runge, rungeRun, hk, initN_eq]

lemma rungeLoopNs_ne_nil (integ : ℚ → ℚ → ℤ → ℚ) (a b eps : ℚ) (p : ℕ) (minN : ℤ)
    (fuel : ℕ) (I_h : ℚ) (n : ℤ) (iter : ℕ) :
    rungeLoopNs integ a b eps p minN fuel I_h n iter ≠ [] := by
  cases fuel with
  | zero => rw [rungeLoopNs_zero]; exact List.cons_ne_nil _ _
  | succ fuel =>
      rcases rungeStep_spec integ a b eps p minN I_h n iter with hs | hs
      · rw [rungeLoopNs_succ_of_done hs]
        exact List.cons_ne_nil _ _
      · rw [rungeLoopNs_succ_of_again hs]
        by_cases hbig : 4000000 < 2 * n
        · rw [if_pos hbig]; exact List.cons_ne_nil _ _
        · rw [if_neg hbig]
          by_cases hw : iter + 1 < 2000
          · rw [if_pos hw]; exact List.cons_ne_nil _ _
          · rw [if_neg hw]; exact List.cons_ne_nil _ _

/-- C10: the do-while loop body of the adaptive driver runs at least once on
every input: the driver makes at least two integrator invocations (the
initial one plus at least one inside the loop), and the final subdivision
count it reports is at least `4` — it never declares convergence at the
initial `n = 2`. -/
theorem runge_at_least_one_iteration (integ : ℚ → ℚ → ℤ → ℚ) (a b eps : ℚ) (p : ℕ) :
    2 ≤ (rungeNs integ a b eps p).length ∧ 4 ≤ (integrate_with_runge integ a b eps p).2 := by
  constructor
  · unfold rungeNs
    rw [List.length_cons]
    have h := rungeLoopNs_ne_nil integ a b eps p (minReliableN p) 2000
      (integ a b (initN p)) (initN p) 0
    have h1 : 1 ≤ (rungeLoopNs integ a b eps p (minReliableN p) 2000
        (integ a b (initN p)) (initN p) 0).length := by
      rcases Nat.eq_zero_or_pos (rungeLoopNs integ a b eps p (minReliableN p) 2000
        (integ a b (initN p)) (initN p) 0).length with h0 | h0
      · exact absurd (List.length_eq_zero.mp h0) h
      · exact h0
    omega
  · obtain ⟨k, hk1, hk⟩ := rungeLoop_snd_pow integ a b eps p (minReliableN p) 2000
      (integ a b (initN p)) (initN p) 0
    rw [integrate_with_runge, rungeRun, hk, initN_eq]
    have h2 : (2 : ℤ) ^ 1 ≤ 2 ^ k := pow_le_pow_right₀ (by norm_num) hk1
    nlinarith [h2]

lemma rungeLoop_stuck (integ : ℚ → ℚ → ℤ → ℚ) (a b eps : ℚ) (p : ℕ) (minN : ℤ)
    (I_h : ℚ) (n : ℤ) (iter : ℕ) (hiter : 1999 ≤ iter) (fuel : ℕ) :
    rungeLoop integ a b eps p minN fuel I_h n iter
      = rungeLoop integ a b eps p minN 0 I_h n iter := by
  cases fuel with
  | zero => rfl
  | succ fuel =>
      rcases rungeStep_spec integ a b eps p minN I_h n iter with hs | hs
      · rw [rungeLoop_of_done integ a b eps p minN (fuel + 1) I_h n iter _ _ hs,
          rungeLoop_of_done integ a b eps p minN 0 I_h n iter _ _ hs]
      · rw [rungeLoop_succ_of_again integ a b eps p minN fuel I_h n iter _ _ _ _ hs,
          rungeLoop_zero_of_again integ a b eps p minN I_h n iter _ _ _ _ hs]
        have hw : ¬ (iter + 1 < 2000) := by omega
        by_cases hbig : 4000000 < 2 * n
        · rw [if_pos hbig]
        · rw [if_neg hbig, if_neg hw]

lemma rungeLoop_fuel_irrel (integ : ℚ → ℚ → ℤ → ℚ) (a b eps : ℚ) (p : ℕ) (minN : ℤ) :
    ∀ (f1 f2 : ℕ) (I_h : ℚ) (n : ℤ) (iter : ℕ), 2000 ≤ iter + f1 → 2000 ≤ iter + f2 →
      rungeLoop integ a b eps p minN f1 I_h n iter
        = rungeLoop integ a b eps p minN f2 I_h n iter := by
  intro f1
  induction f1 with
  | zero =>
      intro f2 I_h n iter h1 h2
      exact (rungeLoop_stuck integ a b eps p minN I_h n iter (by omega) f2).symm
  | succ f ih =>
      intro f2 I_h n iter h1 h2
      cases f2 with
      | zero => exact rungeLoop_stuck integ a b eps p minN I_h n iter (by omega) (f + 1)
      | succ g =>
          rcases rungeStep_spec integ a b eps p minN I_h n iter with hs | hs
          · rw [rungeLoop_of_done integ a b eps p minN (f + 1) I_h n iter _ _ hs,
              rungeLoop_of_done integ a b eps p minN (g + 1) I_h n iter _ _ hs]
          · rw [rungeLoop_succ_of_again integ a b eps p minN f I_h n iter _ _ _ _ hs,
              rungeLoop_succ_of_again integ a b eps p minN g I_h n iter _ _ _ _ hs]
            by_cases hbig : 4000000 < 2 * n
            · rw [if_pos hbig, if_pos hbig]
            · rw [if_neg hbig, if_neg hbig]
              by_cases hw : iter + 1 < 2000
              · rw [if_pos hw, if_pos hw]
                exact ih g (integ a b (2 * n)) (2 * n) (iter + 1) (by omega) (by omega)
              · rw [if_neg hw, if_neg hw]

lemma rungeLoopNs_len (integ : ℚ → ℚ → ℤ → ℚ) (a b eps : ℚ) (p : ℕ) (minN : ℤ) :
    ∀ (fuel : ℕ) (I_h : ℚ) (n : ℤ) (iter : ℕ), iter ≤ 1999 →
      (rungeLoopNs integ a b eps p minN fuel I_h n iter).length ≤ 2000 - iter := by
  intro fuel
  induction fuel with
  | zero =>
      intro I_h n iter hiter
      rw [rungeLoopNs_zero]
      simp
      omega
  | succ fuel ih =>
      intro I_h n iter hiter
      rcases rungeStep_spec integ a b eps p minN I_h n iter with hs | hs
      · rw [rungeLoopNs_succ_of_done hs]
        simp
        omega
      · rw [rungeLoopNs_succ_of_again hs]
        by_cases hbig : 4000000 < 2 * n
        · rw [if_pos hbig]
          simp
          omega
        · rw [if_neg hbig]
          by_cases hw : iter + 1 < 2000
          · rw [if_pos hw, List.length_cons]
            have := ih (integ a b (2 * n)) (2 * n) (iter + 1) (by omega)
            omega
          · rw [if_neg hw]
            simp
            omega

/-- C8: the adaptive driver terminates on every input within its iteration
budget: giving the loop any fuel of at least `2000` produces the very same
result as `integrate_with_runge` (so the fuel-exhaustion branch is never
taken, the do-while loop runs at most `2000` times), and the driver makes at
most `2001` integrator invocations in total. -/
theorem runge_iteration_budget (integ : ℚ → ℚ → ℤ → ℚ) (a b eps : ℚ) (p : ℕ) (fuel : ℕ)
    (hf : 2000 ≤ fuel) :
    rungeRun fuel integ a b eps p = integrate_with_runge integ a b eps p
      ∧ (rungeNs integ a b eps p).length ≤ 2001 := by
  constructor
  · unfold integrate_with_runge rungeRun
    exact rungeLoop_fuel_irrel integ a b eps p (minReliableN p) fuel 2000
      (integ a b (initN p)) (initN p) 0 (by omega) (by omega)
  · unfold rungeNs
    rw [List.length_cons]
    have := rungeLoopNs_len integ a b eps p (minReliableN p) 2000
      (integ a b (initN p)) (initN p) 0 (by omega)
    omega

/-- Witness for C8 at the concrete fuel `2001` and a concrete run
(constant-zero integrator, `a = 0`, `b = 1`, `eps = 1`, `p = 2`). -/
theorem runge_iteration_budget_witness :
    (2000 ≤ 2001)
      ∧ (rungeRun 2001 (fun _ _ _ => (0 : ℚ)) 0 1 1 2
          = integrate_with_runge (fun _ _ _ => (0 : ℚ)) 0 1 1 2
        ∧ (rungeNs (fun _ _ _ => (0 : ℚ)) 0 1 1 2).length ≤ 2001) :=
  ⟨by decide, runge_iteration_budget (fun _ _ _ => (0 : ℚ)) 0 1 1 2 2001 (by decide)⟩

lemma exists_sq_ge (q : ℚ) : ∃ m : ℕ, q ≤ (m : ℚ) ^ 2 := by
  obtain ⟨m, hm⟩ := exists_nat_ge q
  rcases Nat.eq_zero_or_pos m with h0 | h1
  · subst h0
    exact ⟨0, by simpa using hm⟩
  · refine ⟨m, hm.trans ?_⟩
    have h1m : (1 : ℚ) ≤ (m : ℚ) := by exact_mod_cast h1
    calc (m : ℚ) = (m : ℚ) ^ 1 := (pow_one _).symm
      _ ≤ (m : ℚ) ^ 2 := pow_le_pow_right₀ h1m (by omega)

/-- Exact counterpart of the C++ `ceil(sqrt(q))` (`main.cpp` lines 361, 372)
for a nonnegative rational `q`: the least natural `m` with `q ≤ m ^ 2`,
which equals `⌈√q⌉` over the reals. -/
def ceilSqrtQ (q : ℚ) : ℕ := Nat.find (exists_sq_ge q)

lemma ceilSqrtQ_spec (q : ℚ) : q ≤ ((ceilSqrtQ q : ℕ) : ℚ) ^ 2 :=
  Nat.find_spec (exists_sq_ge q)

lemma ceilSqrtQ_min (q : ℚ) {m : ℕ} (h : q ≤ (m : ℚ) ^ 2) : ceilSqrtQ q ≤ m :=
  Nat.find_min' (exists_sq_ge q) h

/-- Error-bound planner of `main.cpp` lines 361–362 and 372–373:
`n = ceil(sqrt(L^3 * M2 / (k * eps)))` with the result floored to `1`
(`if (n == 0) n = 1`).  `L` is the interval width `b - a`, `k` is `24` for
central rectangles and `12` for the trapezoid rule. -/
def plannerN (L M2 eps k : ℚ) : ℕ :=
  if ceilSqrtQ (L ^ 3 * M2 / (k * eps)) = 0 then 1
  else ceilSqrtQ (L ^ 3 * M2 / (k * eps))

lemma bound_le_iff (A k eps x : ℚ) (hk : 0 < k) (he : 0 < eps) (hx : 0 < x) :
    A / (k * x) ≤ eps ↔ A / (k * eps) ≤ x := by
  rw [div_le_iff₀ (by positivity), div_le_iff₀ (by positivity),
    show eps * (k * x) = x * (k * eps) from by ring]

lemma plannerN_ge_one (L M2 eps k : ℚ) : 1 ≤ plannerN L M2 eps k := by
  unfold plannerN
  split
  · exact le_refl 1
  · exact Nat.one_le_iff_ne_zero.mpr (by assumption)

lemma plannerN_bound (L M2 eps k : ℚ) (hL : 0 < L) (hM : 0 ≤ M2) (he : 0 < eps)
    (hk : 0 < k) :
    L ^ 3 * M2 / (k * (plannerN L M2 eps k : ℚ) ^ 2) ≤ eps := by
  have hfind := ceilSqrtQ_spec (L ^ 3 * M2 / (k * eps))
  by_cases h0 : ceilSqrtQ (L ^ 3 * M2 / (k * eps)) = 0
  · have hq0 : (0 : ℚ) ≤ L ^ 3 * M2 / (k * eps) := by positivity
    have hqz : L ^ 3 * M2 / (k * eps) = 0 := by
      refine le_antisymm ?_ hq0
      simpa [h0] using hfind
    have hAz : L ^ 3 * M2 = 0 := by
      rcases div_eq_zero_iff.mp hqz with h | h
      · exact h
      · exact absurd h (by positivity)
    unfold plannerN
    rw [if_pos h0, hAz]
    simpa using he.le
  · unfold plannerN
    rw [if_neg h0]
    have hc1 : 1 ≤ ceilSqrtQ (L ^ 3 * M2 / (k * eps)) := Nat.one_le_iff_ne_zero.mpr h0
    have hc1q : (1 : ℚ) ≤ ((ceilSqrtQ (L ^ 3 * M2 / (k * eps)) : ℕ) : ℚ) := by
      exact_mod_cast hc1
    have hx : (0 : ℚ) < ((ceilSqrtQ (L ^ 3 * M2 / (k * eps)) : ℕ) : ℚ) ^ 2 :=
      pow_pos (lt_of_lt_of_le zero_lt_one hc1q) 2
    rw [bound_le_iff _ _ _ _ hk he hx]
    exact hfind

lemma plannerN_min (L M2 eps k : ℚ) (he : 0 < eps) (hk : 0 < k)
    (m : ℕ) (hm : 1 ≤ m) (hbm : L ^ 3 * M2 / (k * (m : ℚ) ^ 2) ≤ eps) :
    plannerN L M2 eps k ≤ m := by
  have hmq : (1 : ℚ) ≤ (m : ℚ) := by exact_mod_cast hm
  have hx : (0 : ℚ) < (m : ℚ) ^ 2 := pow_pos (lt_of_lt_of_le zero_lt_one hmq) 2
  have hq : L ^ 3 * M2 / (k * eps) ≤ (m : ℚ) ^ 2 := (bound_le_iff _ _ _ _ hk he hx).mp hbm
  have hc := ceilSqrtQ_min _ hq
  unfold plannerN
  split
  · exact hm
  · exact hc

lemma ceilSqrt_concrete1 :
    ceilSqrtQ ((2 : ℚ) ^ 3 * (43156 / 100000) / (24 * (1 / 10000))) = 38 := by
  have harg : (2 : ℚ) ^ 3 * (43156 / 100000) / (24 * (1 / 10000)) = 21578 / 15 := by
    norm_num
  rw [harg]
  unfold ceilSqrtQ
  rw [Nat.find_eq_iff]
  constructor
  · push_cast
    norm_num
  · intro m hm
    rw [not_le]
    have hm37 : m ≤ 37 := by omega
    have hmq : (m : ℚ) ≤ 37 := by exact_mod_cast hm37
    have h2 : (m : ℚ) ^ 2 ≤ 37 ^ 2 := pow_le_pow_left₀ (Nat.cast_nonneg m) hmq 2
    have h3 : (37 : ℚ) ^ 2 < 21578 / 15 := by norm_num
    linarith

lemma ceilSqrt_concrete2 :
    ceilSqrtQ ((2 : ℚ) ^ 3 * (43156 / 100000) / (12 * (1 / 10000))) = 54 := by
  have harg : (2 : ℚ) ^ 3 * (43156 / 100000) / (12 * (1 / 10000)) = 43156 / 15 := by
    norm_num
  rw [harg]
  unfold ceilSqrtQ
  rw [Nat.find_eq_iff]
  constructor
  · push_cast
    norm_num
  · intro m hm
    rw [not_le]
    have hm53 : m ≤ 53 := by omega
    have hmq : (m : ℚ) ≤ 53 := by exact_mod_cast hm53
    have h2 : (m : ℚ) ^ 2 ≤ 53 ^ 2 := pow_le_pow_left₀ (Nat.cast_nonneg m) hmq 2
    have h3 : (53 : ℚ) ^ 2 < 43156 / 15 := by norm_num
    linarith

/-- C2: for interval width `L > 0`, derivative bound `M2 ≥ 0`, tolerance
`eps > 0` and method constant `k > 0`, the planner returns the least `n ≥ 1`
with `L^3 * M2 / (k * n^2) ≤ eps` — that is, `ceil(sqrt(L^3*M2/(k*eps)))`
floored to `1`; in particular for `L = 2`, `M2 = 0.43156`, `eps = 0.0001`
it returns `38` for `k = 24` and `54` for `k = 12`. -/
theorem plannerN_spec (L M2 eps k : ℚ) (hL : 0 < L) (hM : 0 ≤ M2) (he : 0 < eps)
    (hk : 0 < k) :
    (1 ≤ plannerN L M2 eps k
      ∧ L ^ 3 * M2 / (k * (plannerN L M2 eps k : ℚ) ^ 2) ≤ eps
      ∧ (∀ m : ℕ, 1 ≤ m → L ^ 3 * M2 / (k * (m : ℚ) ^ 2) ≤ eps →
          plannerN L M2 eps k ≤ m))
      ∧ plannerN 2 (43156 / 100000) (1 / 10000) 24 = 38
      ∧ plannerN 2 (43156 / 100000) (1 / 10000) 12 = 54 := by
  refine ⟨⟨plannerN_ge_one L M2 eps k, plannerN_bound L M2 eps k hL hM he hk,
    fun m hm hbm => plannerN_min L M2 eps k he hk m hm hbm⟩, ?_, ?_⟩
  · unfold plannerN
    rw [ceilSqrt_concrete1]
    norm_num
  · unfold plannerN
    rw [ceilSqrt_concrete2]
    norm_num

/-- Witness for C2 at the concrete inputs of the program:
`L = 2`, `M2 = 0.43156`, `eps = 0.0001`, `k = 24`. -/
theorem plannerN_spec_witness :
    (0 : ℚ) < 2 ∧ plannerN 2 (43156 / 100000) (1 / 10000) 24 = 38
      ∧ plannerN 2 (43156 / 100000) (1 / 10000) 12 = 54 :=
  ⟨two_pos,
    (plannerN_spec 2 (43156 / 100000) (1 / 10000) 24 two_pos (by positivity)
      (by positivity) (by positivity)).2⟩
